import Mathlib

/-!
Shallow embedding of the reverse-mode differential synthesis engine of
`src/enzyme/Enzyme/DiffeGradientUtils.cpp` (class `DiffeGradientUtils`).

Values, basic blocks and differential slots are identified by natural
numbers.  LLVM types are embedded as an inductive `LLVMType`; floating
point arithmetic is modelled over `ℚ` (the engine sets fast-math flags on
every builder it creates, so the algebraic laws of an ordered field are the
intended semantics of the emitted `fadd`/`fsub`/`select` instructions).
-/

namespace Enzyme

/-- The `DerivativeMode` enumeration. -/
inductive DerivativeMode
  | ForwardMode
  | ForwardModeSplit
  | ReverseModePrimal
  | ReverseModeGradient
  | ReverseModeCombined
deriving DecidableEq, Repr

/-- Embedding of the LLVM types the accumulation protocol dispatches on.
Pointers are opaque here: the protocol only ever asks `isPointerTy`. -/
inductive LLVMType
  | float
  | double
  | integer (bits : Nat)
  | pointer
  | vector (n : Nat) (elt : LLVMType)
  | struct (fields : List LLVMType)
  | array (n : Nat) (elt : LLVMType)
  | void

namespace LLVMType

/-- `Type::isPointerTy`. -/
def isPointerTy : LLVMType → Bool
  | pointer => true
  | _ => false

/-- `Type::isVoidTy`. -/
def isVoidTy : LLVMType → Bool
  | void => true
  | _ => false

/-- `Type::isVectorTy`. -/
def isVectorTy : LLVMType → Bool
  | vector _ _ => true
  | _ => false

/-- `Type::isIntegerTy(w)`: a scalar integer of exactly `w` bits. -/
def isIntegerTy (t : LLVMType) (w : Nat) : Bool :=
  match t with
  | integer b => b == w
  | _ => false

/-- `Type::isIntOrIntVectorTy`. -/
def isIntOrIntVectorTy : LLVMType → Bool
  | integer _ => true
  | vector _ (integer _) => true
  | _ => false

/-- `Type::isFPOrFPVectorTy` (restricted to the float/double cases the
engine manipulates). -/
def isFPOrFPVectorTy : LLVMType → Bool
  | float => true
  | double => true
  | vector _ float => true
  | vector _ double => true
  | _ => false

/-- `DataLayout::getTypeSizeInBits` for the embedded types (pointers take
64 bits; structs are modelled without padding, which the claims never
depend on). -/
def bitSize : LLVMType → Nat
  | float => 32
  | double => 64
  | integer b => b
  | pointer => 64
  | vector n t => n * t.bitSize
  | struct fields => go fields
  | array n t => n * t.bitSize
  | void => 0
where go : List LLVMType → Nat
  | [] => 0
  | t :: ts => t.bitSize + go ts

end LLVMType

/-! ## Reverse Control-Flow Builder

`DiffeGradientUtils::DiffeGradientUtils` (constructor): for every block of
`originalBlocks` other than `inversionAllocs` it creates one fresh reverse
block, appends it to `reverseBlocks[BB]` and records
`reverseBlockToPrimal[RBB] = BB`.  In `ForwardMode`/`ForwardModeSplit` it
returns before creating any block.  Fresh reverse blocks are modelled as
the enumeration indices `0, 1, 2, …` of the surviving forward blocks. -/

/-- The association state built by the constructor: a forward-block →
reverse-block-list map and the reverse → forward back-map (kept as
association lists in insertion order). -/
structure ReverseCFG where
  reverseBlocks : List (Nat × List Nat)
  reverseBlockToPrimal : List (Nat × Nat)
deriving DecidableEq, Repr

/-- The construction loop: walk `originalBlocks`, skip `inversionAllocs`,
and for every other block create one fresh reverse block (`fresh` is the
next unused reverse-block id), recording both associations. -/
def buildLoop (blocks : List Nat) (alloc : Nat) (fresh : Nat) : ReverseCFG :=
  match blocks with
  | [] => ⟨[], []⟩
  | b :: rest =>
    if b = alloc then buildLoop rest alloc fresh
    else
      let tail := buildLoop rest alloc (fresh + 1)
      ⟨(b, [fresh]) :: tail.reverseBlocks,
       (fresh, b) :: tail.reverseBlockToPrimal⟩

/-- The constructor body: `none` models a failed `assert`.  The final
`assert(reverseBlocks.size() != 0)` makes a reverse-mode construction over
a function with no non-entry block fatal. -/
def buildReverseBlocks (mode : DerivativeMode) (originalBlocks : List Nat)
    (inversionAllocs : Nat) : Option ReverseCFG :=
  match mode with
  | .ForwardMode | .ForwardModeSplit => some ⟨[], []⟩
  | _ =>
    let cfg := buildLoop originalBlocks inversionAllocs 0
    if cfg.reverseBlocks.isEmpty then none else some cfg

/-- Total number of reverse blocks recorded in the forward→reverse map. -/
def ReverseCFG.totalReverseBlocks (cfg : ReverseCFG) : Nat :=
  (cfg.reverseBlocks.map (fun p => p.2.length)).sum

/-! ## Differential Store

`DiffeGradientUtils::getDifferential`: the `differentials` map from a
value to its `AllocaInst` slot.  On a miss it creates a fresh alloca in
the `inversionAllocs` entry region, then zero-fills it there
(`ZeroMemory`), before any accumulation instruction can touch it.  Slots
are modelled as the naturals handed out by a `nextSlot` counter;
`entryZeroInits` is the ordered list of zeroing operations emitted into
the entry region. -/

/-- The mutable state of the differential store. -/
structure DiffStore where
  differentials : List (Nat × Nat)
  nextSlot : Nat
  entryZeroInits : List Nat
deriving DecidableEq, Repr

/-- The empty store of a freshly constructed engine. -/
def DiffStore.empty : DiffStore := ⟨[], 0, []⟩

/-- Core of `getDifferential`: look `val` up in `differentials`; on a miss
allocate a fresh slot in the entry region, zero it there, and record it.
Returns the slot together with the updated store. -/
def getDifferentialCore (val : Nat) (st : DiffStore) : Nat × DiffStore :=
  match st.differentials.lookup val with
  | some slot => (slot, st)
  | none =>
    (st.nextSlot,
     ⟨(val, st.nextSlot) :: st.differentials, st.nextSlot + 1,
      st.entryZeroInits ++ [st.nextSlot]⟩)

/-- `DiffeGradientUtils::getDifferential` with its `assert`s made
explicit (`none` models a failed assertion).  `parentOk` stands for the
asserted well-formedness checks (`val` non-null, its parent is `oldFunc`,
`inversionAllocs` exists).  `isConst` is the activity oracle's
classification of `val`; the source function never queries
`isConstantValue`, so the parameter is deliberately unused: the function
body contains no constancy assertion. -/
def getDifferential (parentOk : Bool) (isConst : Bool) (val : Nat)
    (st : DiffStore) : Option (Nat × DiffStore) :=
  if parentOk then some (getDifferentialCore val st) else none

/-- Well-formedness of a store: every recorded slot is below the
allocation counter and distinct values hold distinct slots. -/
def DiffStore.WF (st : DiffStore) : Prop :=
  (∀ p ∈ st.differentials, p.2 < st.nextSlot) ∧
    (st.differentials.map Prod.snd).Nodup

/-! ## `diffe`

`DiffeGradientUtils::diffe`: asserts non-constancy first (a fatal
`assert(0)` after a diagnostic dump); in the two forward modes it then
returns `invertPointerM(val)`; otherwise it asserts the value is neither
pointer- nor void-typed and loads from the differential slot. -/

/-- Outcome of a successful `diffe` call. -/
inductive DiffeResult
  | delegated (val : Nat)
  | loaded (slot : Nat)
deriving DecidableEq, Repr

/-- Fatal assertion causes in the accumulation protocol. -/
inductive DiffeErr
  | constantValue
  | pointerType
  | voidType
deriving DecidableEq, Repr

/-- `DiffeGradientUtils::diffe` (the shadow lookup `invertPointerM` is
kept abstract: `delegated val` records that the call was redirected to
it). -/
def diffe (mode : DerivativeMode) (isConst : Bool) (ty : LLVMType)
    (val : Nat) (st : DiffStore) : Except DiffeErr (DiffeResult × DiffStore) :=
  if isConst then .error .constantValue
  else if mode = .ForwardMode ∨ mode = .ForwardModeSplit then
    .ok (.delegated val, st)
  else if ty.isPointerTy then .error .pointerType
  else if ty.isVoidTy then .error .voidType
  else
    let r := getDifferentialCore val st
    .ok (.loaded r.1, r.2)

/-! ## Atomicity policy of `addToInvertedPtrDiffe`

The tail of `DiffeGradientUtils::addToInvertedPtrDiffe`: starting from the
global `AtomicAdd` default, atomicity is dropped when the underlying
object of `origptr` is an `AllocaInst` and the target architecture is
nvptx/nvptx64/amdgcn (local memory cannot be raced there), and dropped
again when the underlying object is registered in
`backwardsOnlyShadows`.  If the atomic path is chosen while a mask is
supplied, the code hits `llvm_unreachable` (fatal). -/

/-- Target architectures distinguished by the atomicity policy. -/
inductive Arch
  | nvptx
  | nvptx64
  | amdgcn
  | other
deriving DecidableEq, Repr

/-- The inputs the atomic decision reads. -/
structure AtomicCtx where
  atomicAdd : Bool
  arch : Arch
  underlyingIsAlloca : Bool
  backwardsOnlyShadow : Bool
deriving DecidableEq, Repr

/-- The `Atomic` flag as computed at the end of `addToInvertedPtrDiffe`. -/
def chooseAtomic (c : AtomicCtx) : Bool :=
  let atomic := c.atomicAdd
  let atomic :=
    if c.underlyingIsAlloca &&
        (c.arch == .nvptx || c.arch == .nvptx64 || c.arch == .amdgcn) then
      false
    else atomic
  if c.backwardsOnlyShadow then false else atomic

/-- The kind of accumulation sequence emitted for the shadow-pointer
target. -/
inductive PtrEmission
  | atomicRMW
  | plainLoadAddStore
  | maskedLoadAddStore
deriving DecidableEq, Repr

/-- Emission dispatch of `addToInvertedPtrDiffe` after the `Atomic` flag
is known: atomic + mask is `llvm_unreachable` (modelled as `none`);
otherwise an atomic read-modify-write, a masked predicated
load/add/store, or the plain load/add/store sequence. -/
def invertedPtrEmission (c : AtomicCtx) (hasMask : Bool) :
    Option PtrEmission :=
  if chooseAtomic c then
    if hasMask then none else some .atomicRMW
  else if hasMask then some .maskedLoadAddStore
  else some .plainLoadAddStore

/-! ## Numeric reinterpretation in `addToDiffe` (integer-typed slots)

The branch of `DiffeGradientUtils::addToDiffe` taken when the loaded old
value has an integer or integer-vector type: derive a missing
`addingType` from `looseTypeAnalysis` (i64 ↦ double, i32 ↦ float), assert
it is a floating-point type, and widen a scalar `addingType` into a
vector when the slot is strictly wider and a whole multiple. -/

/-- Result of resolving the `addingType` on the integer path: `none`
models a failed `assert(addingType)` / `assert(isFPOrFPVectorTy)`. -/
def resolveAddingType (loose : Bool) (slotTy : LLVMType)
    (addingType : Option LLVMType) : Option LLVMType :=
  let adding :=
    match addingType with
    | some t => some t
    | none =>
      if loose then
        if slotTy.isIntegerTy 64 then some .double
        else if slotTy.isIntegerTy 32 then some .float
        else none
      else none
  match adding with
  | none => none
  | some t =>
    if t.isFPOrFPVectorTy then
      let oldBitSize := slotTy.bitSize
      let newBitSize := t.bitSize
      if oldBitSize > newBitSize && oldBitSize % newBitSize == 0 &&
          !t.isVectorTy then
        some (.vector (oldBitSize / newBitSize) t)
      else some t
    else none

/-! ## `faddForNeg` and `faddForSelect`

The two local lambdas of `addToDiffe` that build the accumulation
expression.  The IR values they inspect and emit are embedded as `IRVal`;
`evalIR` gives the numeric semantics of the emitted instructions over
`ℚ`.  A `bitcast` is a bit reinterpretation between equally wide types;
its numeric effect is an arbitrary function `g : ℚ → ℚ`, about which the
equivalence theorems assume only `g 0 = 0` (zero bits denote the zero
value on both sides of any LLVM bitcast). -/

/-- Embedded IR values: an opaque SSA value, a scalar constant
(`Constant` whose `isZeroValue` is `r = 0`), an `FSub`/`FAdd` binary
operator, a `select`, and a `bitcast`.  The `select` condition is carried
as the `Bool` it evaluates to, since both the fused and the naive forms
branch on the same condition value. -/
inductive IRVal
  | value (v : ℚ)
  | fconst (r : ℚ)
  | fsub (a b : IRVal)
  | fadd (a b : IRVal)
  | select (c : Bool) (t f : IRVal)
  | bitcast (e : IRVal)
deriving DecidableEq, Repr

/-- `Constant::isZeroValue` on the embedded values. -/
def isZeroConstant : IRVal → Bool
  | .fconst r => r == 0
  | _ => false

/-- Numeric semantics of the embedded IR over `ℚ`, with `g` the numeric
effect of `bitcast`. -/
def evalIR (g : ℚ → ℚ) : IRVal → ℚ
  | .value v => v
  | .fconst r => r
  | .fsub a b => evalIR g a - evalIR g b
  | .fadd a b => evalIR g a + evalIR g b
  | .select c t f => if c then evalIR g t else evalIR g f
  | .bitcast e => g (evalIR g e)

/-- The `faddForNeg` lambda: an increment that is an `FSub` whose left
operand is a zero `ConstantFP` is folded into a single `FSub` from the
old value; otherwise a plain `FAdd` is emitted. -/
def faddForNeg (old inc : IRVal) : IRVal :=
  match inc with
  | .fsub (.fconst r) b => if r == 0 then .fsub old b else .fadd old inc
  | _ => .fadd old inc

/-- The `faddForSelect` lambda: a select between a zero constant and a
value (optionally behind a bitcast) is rewritten into a select between
the unchanged old value and old-plus-the-non-zero-branch (via
`faddForNeg`); any other increment falls back to `faddForNeg`. -/
def faddForSelect (old dif : IRVal) : IRVal :=
  match dif with
  | .select c t f =>
    if isZeroConstant t then .select c old (faddForNeg old f)
    else if isZeroConstant f then .select c (faddForNeg old t) old
    else faddForNeg old dif
  | .bitcast (.select c t f) =>
    if isZeroConstant t then .select c old (faddForNeg old (.bitcast f))
    else if isZeroConstant f then .select c (faddForNeg old (.bitcast t)) old
    else faddForNeg old dif
  | _ => faddForNeg old dif

/-! ## Structural recursion of `addToDiffe`

The dispatch of `addToDiffe` on the type of the loaded old value: integer
or floating-point (scalar or vector) slots get one read-modify-write at
the current index path; struct slots recurse per field with `mask`
asserted absent, skipping pointer-typed fields; array slots recurse per
element with `mask` asserted absent, unless the element type is a
pointer, in which case the whole array is skipped; any other type is
`llvm_unreachable`. -/

/-- A structured increment value mirroring the slot type (the result of
repeated `extractMeta`). -/
inductive DiffVal
  | scalar (v : ℚ)
  | ptr
  | agg (elts : List DiffVal)

/-- `ExtractValueInst`-style projection used by `extractMeta`. -/
def extractMeta (d : DiffVal) (i : Nat) : DiffVal :=
  match d with
  | .agg elts => elts.getD i (.scalar 0)
  | _ => d

/-- Fatal outcomes of `addToDiffe`. -/
inductive AddErr
  | assertMode
  | assertPointerVal
  | assertConstant
  | maskedRecursion
  | unknownType
deriving DecidableEq, Repr

/-- An emitted read-modify-write: the index path of the sub-slot that is
loaded, added to and stored back, with the increment used. -/
structure Update where
  path : List Nat
  inc : DiffVal

mutual

/-- The type dispatch of `addToDiffe`, returning the ordered list of
read-modify-write updates it emits (`.error` models the fatal
`assert`/`llvm_unreachable` paths, which emit nothing). -/
def addToDiffeRec (ty : LLVMType) (dif : DiffVal) (mask : Bool)
    (path : List Nat) : Except AddErr (List Update) :=
  if ty.isIntOrIntVectorTy || ty.isFPOrFPVectorTy then
    .ok [⟨path, dif⟩]
  else
    match ty with
    | .struct fields =>
      if mask then .error .maskedRecursion
      else addToDiffeFields fields dif 0 path
    | .array n elt =>
      if mask then .error .maskedRecursion
      else if elt.isPointerTy then .ok []
      else addToDiffeElems elt n dif 0 path
    | _ => .error .unknownType

/-- The struct loop of `addToDiffe`: for each field index, pointer-typed
fields are skipped; other fields recurse on the extracted sub-increment
at the extended index path. -/
def addToDiffeFields (fields : List LLVMType) (dif : DiffVal) (i : Nat)
    (path : List Nat) : Except AddErr (List Update) :=
  match fields with
  | [] => .ok []
  | t :: ts =>
    if t.isPointerTy then addToDiffeFields ts dif (i + 1) path
    else
      match addToDiffeRec t (extractMeta dif i) false (path ++ [i]) with
      | .error e => .error e
      | .ok hd =>
        match addToDiffeFields ts dif (i + 1) path with
        | .error e => .error e
        | .ok tl => .ok (hd ++ tl)

/-- The array loop of `addToDiffe`: recurse on every element index. -/
def addToDiffeElems (elt : LLVMType) (n : Nat) (dif : DiffVal) (i : Nat)
    (path : List Nat) : Except AddErr (List Update) :=
  match n with
  | 0 => .ok []
  | m + 1 =>
    match addToDiffeRec elt (extractMeta dif i) false (path ++ [i]) with
    | .error e => .error e
    | .ok hd =>
      match addToDiffeElems elt m dif (i + 1) path with
      | .error e => .error e
      | .ok tl => .ok (hd ++ tl)

end

/-- Entry of `addToDiffe`: the leading assertions (reverse mode only, the
value is neither pointer-typed nor constant), then the dispatch on the
type of the old value loaded from the slot at `idxs`. -/
def addToDiffe (mode : DerivativeMode) (isConst : Bool)
    (slotTy : LLVMType) (dif : DiffVal) (mask : Bool) (idxs : List Nat) :
    Except AddErr (List Update) :=
  if ¬(mode = .ReverseModeGradient ∨ mode = .ReverseModeCombined) then
    .error .assertMode
  else if slotTy.isPointerTy then .error .assertPointerVal
  else if isConst then .error .assertConstant
  else addToDiffeRec slotTy dif mask idxs

/-! ## Theorems -/

/-- If a value is recognised as a zero `Constant`, it denotes `0`. -/
theorem evalIR_of_isZeroConstant (g : ℚ → ℚ) (t : IRVal)
    (h : isZeroConstant t = true) : evalIR g t = 0 := by
  cases t <;> simp [isZeroConstant] at h
  simpa [evalIR] using h

/-- `faddForNeg` emits an instruction sequence denoting `old + inc`. -/
theorem evalIR_faddForNeg (g : ℚ → ℚ) (old inc : IRVal) :
    evalIR g (faddForNeg old inc) = evalIR g old + evalIR g inc := by
  cases inc with
  | value v => simp [faddForNeg, evalIR]
  | fconst r => simp [faddForNeg, evalIR]
  | fadd a b => simp [faddForNeg, evalIR]
  | select c t f => simp [faddForNeg, evalIR]
  | bitcast e => simp [faddForNeg, evalIR]
  | fsub a b =>
    cases a with
    | fconst r =>
      by_cases hr : r = 0
      · subst hr; simp [faddForNeg, evalIR]; ring
      · simp [faddForNeg, hr, evalIR]
    | value v => simp [faddForNeg, evalIR]
    | fadd a b => simp [faddForNeg, evalIR]
    | select c t f => simp [faddForNeg, evalIR]
    | bitcast e => simp [faddForNeg, evalIR]
    | fsub a b => simp [faddForNeg, evalIR]

/-- Claim C10: an increment of the syntactic form `0.0 - x` is folded by
`faddForNeg` into the single subtraction `old - x`, and that subtraction
denotes the same number as the naive `old + (0.0 - x)` for every value of
`old` and `x` (floating point is modelled by `ℚ`, the semantics licensed
by the fast-math flags the engine sets on its builders). -/
theorem C10_fsub_zero_fold :
    (∀ old x : IRVal, faddForNeg old (.fsub (.fconst 0) x) = .fsub old x) ∧
    (∀ (g : ℚ → ℚ) (old x : IRVal),
      evalIR g (.fsub old x) = evalIR g (.fadd old (.fsub (.fconst 0) x))) := by
  constructor
  · intro old x; simp [faddForNeg]
  · intro g old x; simp [evalIR]; ring

/-- Claim C3, counterexample: a shadow-pointer target whose underlying
object is a stack allocation, on the nvptx architecture, with atomic
accumulation as the configured default (`AtomicAdd = true`) and not a
backwards-only shadow, does *not* get an atomic read-modify-write: the
emission is the plain load/add/store sequence. -/
theorem C3_counterexample :
    invertedPtrEmission ⟨true, .nvptx, true, false⟩ false ≠
      some .atomicRMW ∧
    invertedPtrEmission ⟨true, .nvptx, true, false⟩ false =
      some .plainLoadAddStore := by
  constructor <;> decide

/-- Claim C3, amended: a backwards-only-shadow target never gets an
atomic operation even under the atomic default; every *other* target
under the atomic default gets an atomic read-modify-write *unless* its
underlying object is a stack allocation and the architecture is
nvptx/nvptx64/amdgcn (unraceable local memory), in which case the plain
sequence is emitted. -/
theorem C3_atomicity_policy (c : AtomicCtx) (hasMask : Bool) :
    (c.backwardsOnlyShadow = true →
      invertedPtrEmission c hasMask ≠ some .atomicRMW) ∧
    (c.backwardsOnlyShadow = false → c.atomicAdd = true → hasMask = false →
      ¬(c.underlyingIsAlloca = true ∧
          (c.arch = .nvptx ∨ c.arch = .nvptx64 ∨ c.arch = .amdgcn)) →
      invertedPtrEmission c hasMask = some .atomicRMW) := by
  obtain ⟨aa, arch, alloca, bos⟩ := c
  cases aa <;> cases arch <;> cases alloca <;> cases bos <;> cases hasMask <;>
    simp [invertedPtrEmission, chooseAtomic]

/-- Claim C3 witness. -/
theorem C3_atomicity_policy_witness :
    invertedPtrEmission ⟨true, .other, false, true⟩ false ≠
      some .atomicRMW ∧
    invertedPtrEmission ⟨true, .other, false, false⟩ false =
      some .atomicRMW := by
  constructor
  · exact (C3_atomicity_policy ⟨true, .other, false, true⟩ false).1 rfl
  · exact (C3_atomicity_policy ⟨true, .other, false, false⟩ false).2 rfl rfl rfl
      (by decide)

/-- Claim C4: on an integer(-vector) typed slot with no `addingType`
supplied, the loose-type fallback treats an `i64` slot as `double` and an
`i32` slot as `float`; and whenever the slot's bit width strictly exceeds
the (scalar) adding type's bit width and is a whole multiple of it, the
adding type is broadened into a vector of itself whose total bit width
equals the slot's. -/
theorem C4_numeric_reinterpretation :
    resolveAddingType true (.integer 64) none = some .double ∧
    resolveAddingType true (.integer 32) none = some .float ∧
    (∀ (loose : Bool) (slotTy t : LLVMType),
      t.isFPOrFPVectorTy = true → t.isVectorTy = false →
      t.bitSize < slotTy.bitSize → t.bitSize ∣ slotTy.bitSize →
      resolveAddingType loose slotTy (some t) =
        some (.vector (slotTy.bitSize / t.bitSize) t) ∧
      LLVMType.bitSize (.vector (slotTy.bitSize / t.bitSize) t) =
        slotTy.bitSize) := by
  refine ⟨rfl, rfl, ?_⟩
  intro loose slotTy t hfp hvec hlt hdvd
  have hmod : slotTy.bitSize % t.bitSize = 0 := Nat.mod_eq_zero_of_dvd hdvd
  constructor
  · simp [resolveAddingType, hfp, hvec, hmod, hlt]
  · simp [LLVMType.bitSize, Nat.div_mul_cancel hdvd]

/-- Claim C4 witness: an `i64` slot with `addingType = float` supplied is
broadened to `<2 x float>`. -/
theorem C4_numeric_reinterpretation_witness :
    LLVMType.float.isFPOrFPVectorTy = true ∧
    LLVMType.float.isVectorTy = false ∧
    LLVMType.float.bitSize < (LLVMType.integer 64).bitSize ∧
    LLVMType.float.bitSize ∣ (LLVMType.integer 64).bitSize ∧
    resolveAddingType false (.integer 64) (some .float) =
      some (.vector 2 .float) := by
  refine ⟨rfl, rfl, by decide, by decide, ?_⟩
  have h := (C4_numeric_reinterpretation.2.2 false (.integer 64) .float rfl rfl
    (by decide) (by decide)).1
  simpa [LLVMType.bitSize] using h

/-- Claim C9: supplying a mask together with a struct- or array-typed
target in `addToDiffe` is fatal (`llvm_unreachable`, nothing emitted),
and so is supplying a mask when `addToInvertedPtrDiffe` takes the atomic
path; none of these is a recoverable result. -/
theorem C9_masked_contract_violations :
    (∀ (fields : List LLVMType) (dif : DiffVal) (idxs : List Nat),
      addToDiffeRec (.struct fields) dif true idxs =
        .error .maskedRecursion) ∧
    (∀ (n : Nat) (elt : LLVMType) (dif : DiffVal) (idxs : List Nat),
      addToDiffeRec (.array n elt) dif true idxs =
        .error .maskedRecursion) ∧
    (∀ c : AtomicCtx, chooseAtomic c = true →
      invertedPtrEmission c true = none) := by
  refine ⟨?_, ?_, ?_⟩
  · intro fields dif idxs
    simp [addToDiffeRec, LLVMType.isIntOrIntVectorTy, LLVMType.isFPOrFPVectorTy]
  · intro n elt dif idxs
    simp [addToDiffeRec, LLVMType.isIntOrIntVectorTy, LLVMType.isFPOrFPVectorTy]
  · intro c hc
    simp [invertedPtrEmission, hc]

/-- Claim C9 witness: masked atomic accumulation under the plain atomic
default is fatal. -/
theorem C9_masked_contract_violations_witness :
    chooseAtomic ⟨true, .other, false, false⟩ = true ∧
    invertedPtrEmission ⟨true, .other, false, false⟩ true = none :=
  ⟨rfl, C9_masked_contract_violations.2.2 ⟨true, .other, false, false⟩ rfl⟩

/-- Claim C6: `faddForSelect` rewrites an increment that is a select
between a zero constant and a value (optionally behind a bitcast) into a
single select between the unchanged old value and old-plus-the-non-zero-
branch, and for every condition and operand value the rewritten form
denotes exactly `old + increment` — the naive compute-then-select form.
The bitcast semantics `g` is only assumed to map the zero value to zero,
which every LLVM bitcast does. -/
theorem C6_select_fusion_equivalence :
    (∀ (c : Bool) (x old : IRVal),
      faddForSelect old (.select c (.fconst 0) x) =
        .select c old (faddForNeg old x)) ∧
    (∀ (g : ℚ → ℚ), g 0 = 0 → ∀ (old dif : IRVal),
      evalIR g (faddForSelect old dif) = evalIR g old + evalIR g dif) := by
  constructor
  · intro c x old
    simp [faddForSelect, isZeroConstant]
  · intro g hg old dif
    cases dif with
    | value v => simp [faddForSelect, evalIR_faddForNeg]
    | fconst r => simp [faddForSelect, evalIR_faddForNeg]
    | fsub a b => simp [faddForSelect, evalIR_faddForNeg]
    | fadd a b => simp [faddForSelect, evalIR_faddForNeg]
    | select c t f =>
      by_cases ht : isZeroConstant t = true
      · cases c <;>
          simp [faddForSelect, ht, evalIR, evalIR_faddForNeg,
            evalIR_of_isZeroConstant g t ht]
      · by_cases hf : isZeroConstant f = true
        · cases c <;>
            simp [faddForSelect, ht, hf, evalIR, evalIR_faddForNeg,
              evalIR_of_isZeroConstant g f hf]
        · simp [faddForSelect, ht, hf, evalIR_faddForNeg]
    | bitcast e =>
      cases e with
      | value v => simp [faddForSelect, evalIR_faddForNeg]
      | fconst r => simp [faddForSelect, evalIR_faddForNeg]
      | fsub a b => simp [faddForSelect, evalIR_faddForNeg]
      | fadd a b => simp [faddForSelect, evalIR_faddForNeg]
      | bitcast e2 => simp [faddForSelect, evalIR_faddForNeg]
      | select c t f =>
        by_cases ht : isZeroConstant t = true
        · cases c <;>
            simp [faddForSelect, ht, evalIR, evalIR_faddForNeg,
              evalIR_of_isZeroConstant g t ht, hg]
        · by_cases hf : isZeroConstant f = true
          · cases c <;>
              simp [faddForSelect, ht, hf, evalIR, evalIR_faddForNeg,
                evalIR_of_isZeroConstant g f hf, hg]
          · simp [faddForSelect, ht, hf, evalIR_faddForNeg]

/-- Claim C6 witness: the fused form equals the naive form at a concrete
condition and operands (with the identity bitcast semantics). -/
theorem C6_select_fusion_equivalence_witness :
    (fun q : ℚ => q) 0 = 0 ∧
    evalIR (fun q => q)
        (faddForSelect (.value 5) (.select true (.fconst 0) (.value 3))) =
      evalIR (fun q => q) (.value 5) +
        evalIR (fun q => q) (.select true (.fconst 0) (.value 3)) :=
  ⟨rfl, C6_select_fusion_equivalence.2 (fun q => q) rfl
    (.value 5) (.select true (.fconst 0) (.value 3))⟩

/-- Claim C7, counterexample: `getDifferential`, called on a value the
activity oracle classifies as constant (`isConst = true`) and whose
well-formedness assertions pass, does not fail: it silently creates and
returns a fresh zero-initialized slot. -/
theorem C7_counterexample :
    getDifferential true true 5 DiffStore.empty =
      some (0, ⟨[(5, 0)], 1, [0]⟩) := by
  decide

/-- Claim C7, amended: `getDifferential` itself performs no constancy
check — for any activity classification it returns the (possibly freshly
created) slot; the constants-have-no-derivative contract is enforced by
its callers `diffe` and `addToDiffe`, which fail fatally on a constant
value before requesting the slot. -/
theorem C7_constant_check_in_callers :
    (∀ (isConst : Bool) (val : Nat) (st : DiffStore),
      getDifferential true isConst val st =
        some (getDifferentialCore val st)) ∧
    (∀ (mode : DerivativeMode) (ty : LLVMType) (val : Nat) (st : DiffStore),
      diffe mode true ty val st = .error .constantValue) ∧
    (∀ (mode : DerivativeMode) (slotTy : LLVMType) (dif : DiffVal)
        (mask : Bool) (idxs : List Nat),
      (mode = .ReverseModeGradient ∨ mode = .ReverseModeCombined) →
      slotTy.isPointerTy = false →
      addToDiffe mode true slotTy dif mask idxs = .error .assertConstant) := by
  refine ⟨?_, ?_, ?_⟩
  · intro isConst val st
    simp [getDifferential]
  · intro mode ty val st
    simp [diffe]
  · intro mode slotTy dif mask idxs hmode hptr
    simp [addToDiffe, hmode, hptr]

/-- Claim C7 witness. -/
theorem C7_constant_check_in_callers_witness :
    addToDiffe .ReverseModeGradient true .float (.scalar 1) false [] =
      .error .assertConstant :=
  C7_constant_check_in_callers.2.2 .ReverseModeGradient .float (.scalar 1)
    false [] (Or.inl rfl) rfl

/-- Claim C8, counterexample: in `ForwardMode`, `diffe` on a non-constant
pointer-typed value does not fail — it successfully delegates to the
shadow-pointer lookup, so "fails whenever V is pointer-typed" is not true
of every mode. -/
theorem C8_counterexample :
    diffe .ForwardMode false .pointer 7 DiffStore.empty =
      .ok (.delegated 7, DiffStore.empty) := by
  simp [diffe]

/-- Claim C8, amended: `diffe` fails fatally on a constant value in every
mode; otherwise, in `ForwardMode`/`ForwardModeSplit` it delegates to the
shadow-pointer lookup `invertPointerM` instead of loading from a slot
(even for pointer-typed values), while in the reverse modes it fails
fatally on pointer-typed and void-typed values and otherwise loads from
the differential slot. -/
theorem C8_diffe_contract :
    (∀ (mode : DerivativeMode) (ty : LLVMType) (val : Nat) (st : DiffStore),
      diffe mode true ty val st = .error .constantValue) ∧
    (∀ (mode : DerivativeMode) (ty : LLVMType) (val : Nat) (st : DiffStore),
      (mode = .ForwardMode ∨ mode = .ForwardModeSplit) →
      diffe mode false ty val st = .ok (.delegated val, st)) ∧
    (∀ (mode : DerivativeMode) (ty : LLVMType) (val : Nat) (st : DiffStore),
      ¬(mode = .ForwardMode ∨ mode = .ForwardModeSplit) →
      ty.isPointerTy = true →
      diffe mode false ty val st = .error .pointerType) ∧
    (∀ (mode : DerivativeMode) (val : Nat) (st : DiffStore),
      ¬(mode = .ForwardMode ∨ mode = .ForwardModeSplit) →
      diffe mode false .void val st = .error .voidType) ∧
    (∀ (mode : DerivativeMode) (ty : LLVMType) (val : Nat) (st : DiffStore),
      ¬(mode = .ForwardMode ∨ mode = .ForwardModeSplit) →
      ty.isPointerTy = false → ty.isVoidTy = false →
      diffe mode false ty val st =
        .ok (.loaded (getDifferentialCore val st).1,
          (getDifferentialCore val st).2)) := by
  refine ⟨?_, ?_, ?_, ?_, ?_⟩
  · intro mode ty val st; simp [diffe]
  · intro mode ty val st hmode; simp [diffe, hmode]
  · intro mode ty val st hmode hptr; simp [diffe, hmode, hptr]
  · intro mode val st hmode
    simp [diffe, hmode, LLVMType.isPointerTy, LLVMType.isVoidTy]
  · intro mode ty val st hmode hptr hvoid; simp [diffe, hmode, hptr, hvoid]

/-- Claim C8 witness. -/
theorem C8_diffe_contract_witness :
    diffe .ReverseModeGradient false .pointer 3 DiffStore.empty =
      .error .pointerType ∧
    diffe .ForwardMode false .float 3 DiffStore.empty =
      .ok (.delegated 3, DiffStore.empty) :=
  ⟨C8_diffe_contract.2.2.1 .ReverseModeGradient .pointer 3 DiffStore.empty
      (by decide) rfl,
   C8_diffe_contract.2.1 .ForwardMode .float 3 DiffStore.empty (Or.inl rfl)⟩

/-- A successful association-list lookup exhibits a member. -/
theorem lookup_mem {l : List (Nat × Nat)} {a b : Nat}
    (h : l.lookup a = some b) : (a, b) ∈ l := by
  induction l with
  | nil => simp [List.lookup] at h
  | cons p tl ih =>
    obtain ⟨k, v⟩ := p
    by_cases hak : a = k
    · subst hak
      simp [List.lookup_cons] at h
      simp [h]
    · simp only [List.lookup_cons, beq_false_of_ne hak] at h
      exact List.mem_cons_of_mem _ (ih h)

/-- If the slots of an association list are `Nodup`, equal slots force
equal entries. -/
theorem eq_of_snd_eq_of_nodup {l : List (Nat × Nat)}
    (h : (l.map Prod.snd).Nodup) :
    ∀ p ∈ l, ∀ q ∈ l, p.2 = q.2 → p = q := by
  induction l with
  | nil => simp
  | cons a tl ih =>
    rw [List.map_cons, List.nodup_cons] at h
    intro p hp q hq heq
    rcases List.mem_cons.mp hp with hp | hp <;>
      rcases List.mem_cons.mp hq with hq | hq
    · rw [hp, hq]
    · exfalso
      apply h.1
      have hm : q.2 ∈ List.map Prod.snd tl := List.mem_map_of_mem Prod.snd hq
      rw [← heq, hp] at hm
      exact hm
    · exfalso
      apply h.1
      have hm : p.2 ∈ List.map Prod.snd tl := List.mem_map_of_mem Prod.snd hp
      rw [heq, hq] at hm
      exact hm
    · exact ih h.2 p hp q hq heq

/-- Claim C2: the differential slot of a value is created lazily on first
request with a zeroing operation in the fixed entry region; a repeated
request for the same value returns the identical slot without touching
the store; well-formedness is preserved; and a request for any other
value returns a different slot. -/
theorem C2_differential_slot_invariants (st : DiffStore) (v : Nat)
    (hwf : st.WF) :
    getDifferentialCore v (getDifferentialCore v st).2 =
      getDifferentialCore v st ∧
    (st.differentials.lookup v = none →
      (getDifferentialCore v st).1 ∈
        (getDifferentialCore v st).2.entryZeroInits) ∧
    (getDifferentialCore v st).2.WF ∧
    (∀ v2, v2 ≠ v →
      (getDifferentialCore v2 (getDifferentialCore v st).2).1 ≠
        (getDifferentialCore v st).1) := by
  obtain ⟨hbound, hnodup⟩ := hwf
  cases h : st.differentials.lookup v with
  | some s =>
    have hcall : getDifferentialCore v st = (s, st) := by
      simp [getDifferentialCore, h]
    refine ⟨by rw [hcall]; exact hcall, by simp [h], ?_, ?_⟩
    · rw [hcall]
      exact ⟨hbound, hnodup⟩
    · intro v2 hne
      rw [hcall]
      cases h2 : st.differentials.lookup v2 with
      | some s2 =>
        have hmem : (v, s) ∈ st.differentials := lookup_mem h
        have hmem2 : (v2, s2) ∈ st.differentials := lookup_mem h2
        have hv2 : (getDifferentialCore v2 st).1 = s2 := by
          simp [getDifferentialCore, h2]
        rw [hv2]
        intro hss
        have heq := eq_of_snd_eq_of_nodup hnodup (v2, s2) hmem2 (v, s) hmem hss
        exact hne (congrArg Prod.fst heq)
      | none =>
        have hv2 : (getDifferentialCore v2 st).1 = st.nextSlot := by
          simp [getDifferentialCore, h2]
        rw [hv2]
        have hlt := hbound (v, s) (lookup_mem h)
        simp only at hlt
        omega
  | none =>
    have hcall : getDifferentialCore v st =
        (st.nextSlot,
         ⟨(v, st.nextSlot) :: st.differentials, st.nextSlot + 1,
          st.entryZeroInits ++ [st.nextSlot]⟩) := by
      simp [getDifferentialCore, h]
    refine ⟨?_, ?_, ?_, ?_⟩
    · rw [hcall]
      show getDifferentialCore v
          ⟨(v, st.nextSlot) :: st.differentials, st.nextSlot + 1,
           st.entryZeroInits ++ [st.nextSlot]⟩ = _
      simp [getDifferentialCore, List.lookup_cons]
    · intro
      rw [hcall]
      show st.nextSlot ∈ st.entryZeroInits ++ [st.nextSlot]
      simp
    · rw [hcall]
      show DiffStore.WF
        ⟨(v, st.nextSlot) :: st.differentials, st.nextSlot + 1,
         st.entryZeroInits ++ [st.nextSlot]⟩
      refine ⟨?_, ?_⟩
      · intro p hp
        rcases List.mem_cons.mp hp with hp | hp
        · rw [hp]
          show st.nextSlot < st.nextSlot + 1
          omega
        · have := hbound p hp
          show p.2 < st.nextSlot + 1
          omega
      · show (List.map Prod.snd ((v, st.nextSlot) :: st.differentials)).Nodup
        rw [List.map_cons, List.nodup_cons]
        refine ⟨?_, hnodup⟩
        intro hmem
        obtain ⟨p, hp, hps⟩ := List.mem_map.mp hmem
        have := hbound p hp
        omega
    · intro v2 hne
      rw [hcall]
      show (getDifferentialCore v2
          ⟨(v, st.nextSlot) :: st.differentials, st.nextSlot + 1,
           st.entryZeroInits ++ [st.nextSlot]⟩).1 ≠ st.nextSlot
      have hlk : ((v, st.nextSlot) :: st.differentials).lookup v2 =
          st.differentials.lookup v2 := by
        simp only [List.lookup_cons, beq_false_of_ne hne]
      cases h2 : st.differentials.lookup v2 with
      | some s2 =>
        have hv2 : (getDifferentialCore v2
            ⟨(v, st.nextSlot) :: st.differentials, st.nextSlot + 1,
             st.entryZeroInits ++ [st.nextSlot]⟩).1 = s2 := by
          simp [getDifferentialCore, hlk, h2]
        rw [hv2]
        have hlt := hbound (v2, s2) (lookup_mem h2)
        simp only at hlt
        omega
      | none =>
        have hv2 : (getDifferentialCore v2
            ⟨(v, st.nextSlot) :: st.differentials, st.nextSlot + 1,
             st.entryZeroInits ++ [st.nextSlot]⟩).1 = st.nextSlot + 1 := by
          simp [getDifferentialCore, hlk, h2]
        rw [hv2]
        omega

/-- Claim C2 witness: instantiated at the empty store of a fresh engine
and value `5`. -/
theorem C2_differential_slot_invariants_witness :
    DiffStore.WF DiffStore.empty ∧
    (∀ v2, v2 ≠ 5 →
      (getDifferentialCore v2 (getDifferentialCore 5 DiffStore.empty).2).1 ≠
        (getDifferentialCore 5 DiffStore.empty).1) :=
  ⟨⟨by simp [DiffStore.empty], by simp [DiffStore.empty]⟩,
   (C2_differential_slot_invariants DiffStore.empty 5
     ⟨by simp [DiffStore.empty], by simp [DiffStore.empty]⟩).2.2.2⟩

/-- Every reverse block created by the loop corresponds to one surviving
forward block: the forward→reverse map has one entry, holding a singleton
list, per non-allocation block. -/
theorem buildLoop_length (blocks : List Nat) (alloc : Nat) (fresh : Nat) :
    (buildLoop blocks alloc fresh).reverseBlocks.length =
      (blocks.filter (fun b => decide (b ≠ alloc))).length := by
  induction blocks generalizing fresh with
  | nil => simp [buildLoop]
  | cons b rest ih =>
    by_cases hb : b = alloc
    · simp [buildLoop, hb, ih]
    · simp [buildLoop, hb, ih]

/-- The total reverse-block count equals the number of non-allocation
forward blocks. -/
theorem buildLoop_total (blocks : List Nat) (alloc : Nat) (fresh : Nat) :
    (buildLoop blocks alloc fresh).totalReverseBlocks =
      (blocks.filter (fun b => decide (b ≠ alloc))).length := by
  induction blocks generalizing fresh with
  | nil => simp [buildLoop, ReverseCFG.totalReverseBlocks]
  | cons b rest ih =>
    by_cases hb : b = alloc
    · simp [buildLoop, hb, ReverseCFG.totalReverseBlocks] at ih ⊢
      exact ih fresh
    · simp [buildLoop, hb, ReverseCFG.totalReverseBlocks] at ih ⊢
      have := ih (fresh + 1)
      omega

/-- Both associations are recorded for every non-allocation forward
block: the forward→reverse map holds exactly one reverse block for it and
the back-map returns the forward block for that reverse block.  Fresh
reverse-block ids start at `fresh`. -/
theorem buildLoop_assoc (blocks : List Nat) (alloc : Nat) (fresh : Nat)
    (b : Nat) (hmem : b ∈ blocks) (hne : b ≠ alloc) :
    ∃ rb, fresh ≤ rb ∧
      (buildLoop blocks alloc fresh).reverseBlocks.lookup b = some [rb] ∧
      (buildLoop blocks alloc fresh).reverseBlockToPrimal.lookup rb =
        some b := by
  induction blocks generalizing fresh with
  | nil => exact absurd hmem (List.not_mem_nil b)
  | cons a rest ih =>
    by_cases ha : a = alloc
    · have hmem2 : b ∈ rest := by
        rcases List.mem_cons.mp hmem with h | h
        · exact absurd (h.trans ha) hne
        · exact h
      simpa [buildLoop, ha] using ih fresh hmem2
    · by_cases hba : b = a
      · subst hba
        refine ⟨fresh, le_refl fresh, ?_, ?_⟩
        · simp [buildLoop, ha, List.lookup_cons]
        · simp [buildLoop, ha, List.lookup_cons]
      · have hmem2 : b ∈ rest := by
          rcases List.mem_cons.mp hmem with h | h
          · exact absurd h hba
          · exact h
        obtain ⟨rb, hle, hfwd, hbwd⟩ := ih (fresh + 1) hmem2
        refine ⟨rb, by omega, ?_, ?_⟩
        · simp only [buildLoop, ha, if_false]
          simpa [List.lookup_cons, beq_false_of_ne hba] using hfwd
        · simp only [buildLoop, ha, if_false]
          have hrbne : rb ≠ fresh := by omega
          simpa [List.lookup_cons, beq_false_of_ne hrbne] using hbwd

/-- Claim C1: constructing the engine in a forward mode creates zero
reverse blocks; constructing it in `ReverseModeGradient` or
`ReverseModeCombined` creates exactly one reverse block for every forward
block other than the entry allocation block, records the forward→reverse
and reverse→forward associations, and yields exactly `N` reverse blocks
for `N` non-entry blocks (the final assertion requires `N > 0`). -/
theorem C1_reverse_block_construction :
    (∀ (blocks : List Nat) (alloc : Nat),
      buildReverseBlocks .ForwardMode blocks alloc = some ⟨[], []⟩ ∧
      buildReverseBlocks .ForwardModeSplit blocks alloc = some ⟨[], []⟩) ∧
    (∀ (mode : DerivativeMode) (blocks : List Nat) (alloc : Nat),
      (mode = .ReverseModeGradient ∨ mode = .ReverseModeCombined) →
      blocks.filter (fun b => decide (b ≠ alloc)) ≠ [] →
      ∃ cfg, buildReverseBlocks mode blocks alloc = some cfg ∧
        cfg.totalReverseBlocks =
          (blocks.filter (fun b => decide (b ≠ alloc))).length ∧
        (∀ b ∈ blocks, b ≠ alloc → ∃ rb,
          cfg.reverseBlocks.lookup b = some [rb] ∧
          cfg.reverseBlockToPrimal.lookup rb = some b)) := by
  constructor
  · intro blocks alloc
    exact ⟨rfl, rfl⟩
  · intro mode blocks alloc hmode hne
    have hempty : (buildLoop blocks alloc 0).reverseBlocks.isEmpty = false := by
      have hlen := buildLoop_length blocks alloc 0
      cases hcfg : (buildLoop blocks alloc 0).reverseBlocks with
      | nil =>
        rw [hcfg] at hlen
        exact absurd (List.length_eq_zero.mp hlen.symm) hne
      | cons x xs => simp
    have hbuild : buildReverseBlocks mode blocks alloc =
        some (buildLoop blocks alloc 0) := by
      rcases hmode with h | h <;> subst h <;>
        simp [buildReverseBlocks, hempty]
    refine ⟨buildLoop blocks alloc 0, hbuild, buildLoop_total blocks alloc 0, ?_⟩
    intro b hmem hneb
    obtain ⟨rb, _, hfwd, hbwd⟩ := buildLoop_assoc blocks alloc 0 b hmem hneb
    exact ⟨rb, hfwd, hbwd⟩

/-- Claim C1 witness: three forward blocks, block `0` being the entry
allocation block, yield two reverse blocks in `ReverseModeGradient` and
none in `ForwardMode`. -/
theorem C1_reverse_block_construction_witness :
    buildReverseBlocks .ForwardMode [0, 1, 2] 0 = some ⟨[], []⟩ ∧
    ∃ cfg, buildReverseBlocks .ReverseModeGradient [0, 1, 2] 0 = some cfg ∧
      cfg.totalReverseBlocks =
        (([0, 1, 2] : List Nat).filter (fun b => decide (b ≠ 0))).length ∧
      (∀ b ∈ ([0, 1, 2] : List Nat), b ≠ 0 → ∃ rb,
        cfg.reverseBlocks.lookup b = some [rb] ∧
        cfg.reverseBlockToPrimal.lookup rb = some b) :=
  ⟨(C1_reverse_block_construction.1 [0, 1, 2] 0).1,
   C1_reverse_block_construction.2 .ReverseModeGradient [0, 1, 2] 0
     (Or.inl rfl) (by decide)⟩

/-- A structural size measure on the embedded types, driving induction
over the accumulation recursion. -/
def LLVMType.tsize : LLVMType → Nat
  | .vector _ t => 1 + t.tsize
  | .struct fields => 1 + go fields
  | .array _ t => 1 + t.tsize
  | _ => 1
where go : List LLVMType → Nat
  | [] => 0
  | t :: ts => t.tsize + go ts

/-- Every type has positive size. -/
theorem tsize_pos (ty : LLVMType) : 1 ≤ ty.tsize := by
  cases ty <;> simp [LLVMType.tsize]

/-- Every emitted update of the accumulation recursion lives strictly
below the index path the call was entered with. -/
theorem path_extends (n : Nat) :
    (∀ ty : LLVMType, ty.tsize ≤ n →
      ∀ (dif : DiffVal) (mask : Bool) (path : List Nat) (l : List Update),
      addToDiffeRec ty dif mask path = .ok l →
      ∀ u ∈ l, ∃ rest, u.path = path ++ rest) ∧
    (∀ fields : List LLVMType, LLVMType.tsize.go fields ≤ n →
      ∀ (dif : DiffVal) (i : Nat) (path : List Nat) (l : List Update),
      addToDiffeFields fields dif i path = .ok l →
      ∀ u ∈ l, ∃ rest, u.path = path ++ rest) ∧
    (∀ elt : LLVMType, elt.tsize ≤ n →
      ∀ (m : Nat) (dif : DiffVal) (i : Nat) (path : List Nat)
        (l : List Update),
      addToDiffeElems elt m dif i path = .ok l →
      ∀ u ∈ l, ∃ rest, u.path = path ++ rest) := by
  induction n with
  | zero =>
    refine ⟨?_, ?_, ?_⟩
    · intro ty hty
      exact absurd (le_trans (tsize_pos ty) hty) (by omega)
    · intro fields hfields dif i path l hok u hu
      cases fields with
      | nil =>
        simp [addToDiffeFields] at hok
        subst hok
        exact absurd hu (List.not_mem_nil u)
      | cons t ts =>
        exfalso
        have h1 := tsize_pos t
        simp [LLVMType.tsize.go] at hfields
        omega
    · intro elt helt
      exact absurd (le_trans (tsize_pos elt) helt) (by omega)
  | succ n ih =>
    have hrec : ∀ ty : LLVMType, ty.tsize ≤ n + 1 →
        ∀ (dif : DiffVal) (mask : Bool) (path : List Nat) (l : List Update),
        addToDiffeRec ty dif mask path = .ok l →
        ∀ u ∈ l, ∃ rest, u.path = path ++ rest := by
      intro ty hty dif mask path l hok u hu
      rw [addToDiffeRec.eq_def] at hok
      by_cases hleaf : (ty.isIntOrIntVectorTy || ty.isFPOrFPVectorTy) = true
      · rw [if_pos hleaf] at hok
        simp only [Except.ok.injEq] at hok
        subst hok
        rcases List.mem_singleton.mp hu with rfl
        exact ⟨[], by simp⟩
      · rw [if_neg hleaf] at hok
        cases ty with
        | float => exact absurd rfl hleaf
        | double => exact absurd rfl hleaf
        | integer b => exact absurd rfl hleaf
        | pointer => simp at hok
        | void => simp at hok
        | vector m t => simp at hok
        | struct fields =>
          cases mask with
          | true => simp at hok
          | false =>
            simp at hok
            have hgo : LLVMType.tsize.go fields ≤ n := by
              have h2 := hty
              simp [LLVMType.tsize] at h2
              omega
            exact ih.2.1 fields hgo dif 0 path l hok u hu
        | array m t =>
          cases mask with
          | true => simp at hok
          | false =>
            cases hp : t.isPointerTy with
            | true =>
              simp [hp] at hok
              subst hok
              exact absurd hu (List.not_mem_nil u)
            | false =>
              simp [hp] at hok
              have htn : t.tsize ≤ n := by
                have h2 := hty
                simp [LLVMType.tsize] at h2
                omega
              exact ih.2.2 t htn m dif 0 path l hok u hu
    refine ⟨hrec, ?_, ?_⟩
    · intro fields
      induction fields with
      | nil =>
        intro hfields dif i path l hok u hu
        simp [addToDiffeFields] at hok
        subst hok
        exact absurd hu (List.not_mem_nil u)
      | cons t ts ihf =>
        intro hfields dif i path l hok u hu
        have hts : t.tsize ≤ n + 1 ∧ LLVMType.tsize.go ts ≤ n + 1 := by
          have h1 := tsize_pos t
          simp [LLVMType.tsize.go] at hfields
          constructor <;> omega
        rw [addToDiffeFields.eq_def] at hok
        cases hp : t.isPointerTy with
        | true =>
          simp [hp] at hok
          exact ihf hts.2 dif (i + 1) path l hok u hu
        | false =>
          simp [hp] at hok
          cases h1 : addToDiffeRec t (extractMeta dif i) false (path ++ [i]) with
          | error e =>
            rw [h1] at hok
            simp at hok
          | ok hd =>
            rw [h1] at hok
            cases h2 : addToDiffeFields ts dif (i + 1) path with
            | error e =>
              rw [h2] at hok
              simp at hok
            | ok tl =>
              rw [h2] at hok
              simp at hok
              subst hok
              rcases List.mem_append.mp hu with hu | hu
              · obtain ⟨rest, hrest⟩ :=
                  hrec t hts.1 (extractMeta dif i) false (path ++ [i]) hd h1 u hu
                exact ⟨[i] ++ rest, by rw [hrest, List.append_assoc]⟩
              · exact ihf hts.2 dif (i + 1) path tl h2 u hu
    · intro elt helt m
      induction m with
      | zero =>
        intro dif i path l hok u hu
        simp [addToDiffeElems] at hok
        subst hok
        exact absurd hu (List.not_mem_nil u)
      | succ m ihm =>
        intro dif i path l hok u hu
        rw [addToDiffeElems.eq_def] at hok
        simp only [] at hok
        cases h1 : addToDiffeRec elt (extractMeta dif i) false (path ++ [i]) with
        | error e =>
          rw [h1] at hok
          simp at hok
        | ok hd =>
          rw [h1] at hok
          cases h2 : addToDiffeElems elt m dif (i + 1) path with
          | error e =>
            rw [h2] at hok
            simp at hok
          | ok tl =>
            rw [h2] at hok
            simp at hok
            subst hok
            rcases List.mem_append.mp hu with hu | hu
            · obtain ⟨rest, hrest⟩ :=
                hrec elt helt (extractMeta dif i) false (path ++ [i]) hd h1 u hu
              exact ⟨[i] ++ rest, by rw [hrest, List.append_assoc]⟩
            · exact ihm dif (i + 1) path tl h2 u hu

/-- Characterization of the struct recursion: every emitted update sits
under a field index whose field type is not a pointer. -/
theorem fields_updates (fields : List LLVMType) :
    ∀ (dif : DiffVal) (i : Nat) (path : List Nat) (l : List Update),
    addToDiffeFields fields dif i path = .ok l →
    ∀ u ∈ l, ∃ j t rest, fields.get? j = some t ∧ t.isPointerTy = false ∧
      u.path = path ++ [i + j] ++ rest := by
  induction fields with
  | nil =>
    intro dif i path l hok u hu
    simp [addToDiffeFields] at hok
    subst hok
    exact absurd hu (List.not_mem_nil u)
  | cons t ts ih =>
    intro dif i path l hok u hu
    rw [addToDiffeFields.eq_def] at hok
    cases hp : t.isPointerTy with
    | true =>
      simp [hp] at hok
      obtain ⟨j, t2, rest, hget, hptr, hpath⟩ :=
        ih dif (i + 1) path l hok u hu
      refine ⟨j + 1, t2, rest, by simpa using hget, hptr, ?_⟩
      rw [hpath]
      have harith : i + (j + 1) = i + 1 + j := by omega
      rw [harith]
    | false =>
      simp [hp] at hok
      cases h1 : addToDiffeRec t (extractMeta dif i) false (path ++ [i]) with
      | error e =>
        rw [h1] at hok
        simp at hok
      | ok hd =>
        rw [h1] at hok
        cases h2 : addToDiffeFields ts dif (i + 1) path with
        | error e =>
          rw [h2] at hok
          simp at hok
        | ok tl =>
          rw [h2] at hok
          simp at hok
          subst hok
          rcases List.mem_append.mp hu with hu | hu
          · obtain ⟨rest, hrest⟩ := (path_extends t.tsize).1 t (le_refl _)
              (extractMeta dif i) false (path ++ [i]) hd h1 u hu
            refine ⟨0, t, rest, rfl, hp, ?_⟩
            rw [hrest]
            simp
          · obtain ⟨j, t2, rest, hget, hptr, hpath⟩ :=
              ih dif (i + 1) path tl h2 u hu
            refine ⟨j + 1, t2, rest, by simpa using hget, hptr, ?_⟩
            rw [hpath]
            have harith : i + (j + 1) = i + 1 + j := by omega
            rw [harith]

/-- Claim C5: for a struct-typed target `addToDiffe` recurses per field,
leaving every pointer-typed field sub-slot untouched; for an array-typed
target it recurses per element unless the element type is a pointer, in
which case the whole array is skipped and nothing is emitted.  The spec
example `{float a; int* p; float b}` with increment `{1.0, null, 2.0}`
updates exactly the `a` and `b` sub-slots by `1.0`/`2.0`. -/
theorem C5_structural_recursion :
    (∀ (fields : List LLVMType) (dif : DiffVal) (path : List Nat)
        (l : List Update) (j : Nat) (t : LLVMType),
      addToDiffeRec (.struct fields) dif false path = .ok l →
      fields.get? j = some t → t.isPointerTy = true →
      ∀ u ∈ l, u.path.take (path.length + 1) ≠ path ++ [j]) ∧
    (∀ (n : Nat) (elt : LLVMType) (dif : DiffVal) (path : List Nat),
      elt.isPointerTy = true →
      addToDiffeRec (.array n elt) dif false path = .ok []) ∧
    (addToDiffeRec (.struct [.float, .pointer, .float])
        (.agg [.scalar 1, .ptr, .scalar 2]) false [] =
      .ok [⟨[0], .scalar 1⟩, ⟨[2], .scalar 2⟩]) ∧
    (addToDiffeRec (.array 2 .float) (.agg [.scalar 3, .scalar 4]) false [] =
      .ok [⟨[0], .scalar 3⟩, ⟨[1], .scalar 4⟩]) := by
  refine ⟨?_, ?_, ?_, ?_⟩
  · intro fields dif path l j t hok hget hptr u hu
    rw [addToDiffeRec.eq_def] at hok
    simp [LLVMType.isIntOrIntVectorTy, LLVMType.isFPOrFPVectorTy] at hok
    obtain ⟨j2, t2, rest, hget2, hptr2, hpath⟩ :=
      fields_updates fields dif 0 path l hok u hu
    rw [hpath]
    have htake : (path ++ [0 + j2] ++ rest).take (path.length + 1) =
        path ++ [0 + j2] := by
      have hlen : (path ++ [0 + j2]).length = path.length + 1 := by simp
      rw [← hlen, List.take_left]
    rw [htake]
    intro hcontr
    have hj : j2 = j := by
      have := List.append_cancel_left hcontr
      simp at this
      omega
    rw [hj] at hget2
    rw [hget] at hget2
    have ht : t = t2 := by simpa using hget2
    rw [← ht, hptr] at hptr2
    cases hptr2
  · intro n elt dif path hp
    rw [addToDiffeRec.eq_def]
    simp [hp, LLVMType.isIntOrIntVectorTy, LLVMType.isFPOrFPVectorTy]
  · simp [addToDiffeRec, addToDiffeFields, extractMeta,
      LLVMType.isIntOrIntVectorTy, LLVMType.isFPOrFPVectorTy,
      LLVMType.isPointerTy]
  · simp [addToDiffeRec, addToDiffeElems, extractMeta,
      LLVMType.isIntOrIntVectorTy, LLVMType.isFPOrFPVectorTy,
      LLVMType.isPointerTy]

/-- Claim C5 witness: the pointer field (index 1) of the spec's example
struct is untouched by every update emitted for it, and an array of
pointers emits nothing. -/
theorem C5_structural_recursion_witness :
    ([LLVMType.float, .pointer, .float].get? 1 = some .pointer) ∧
    (∀ u ∈ [Update.mk [0] (.scalar 1), Update.mk [2] (.scalar 2)],
      u.path.take 1 ≠ [1]) ∧
    addToDiffeRec (.array 3 .pointer) (.agg []) false [] = .ok [] := by
  refine ⟨rfl, ?_, ?_⟩
  · exact C5_structural_recursion.1 [.float, .pointer, .float]
      (.agg [.scalar 1, .ptr, .scalar 2]) [] _ 1 .pointer
      C5_structural_recursion.2.2.1 rfl rfl
  · exact C5_structural_recursion.2.1 3 .pointer (.agg []) [] rfl

end Enzyme
